import Mathlib

/-!
Verification of the NeuroSched simulation kernel against its specification.

Each section embeds one Python module of the repository as executable Lean
definitions (Python floats become `ℚ`, Python ints become `ℤ` or `ℕ`,
exceptions become `Option`), and proves or refutes the stated properties.
-/

set_option maxHeartbeats 1000000

namespace NeuroSched

/-! ## Metrics: `backend/metrics/fairness.py` -/

/-- Embedding of `jains_fairness` from `backend/metrics/fairness.py`:
`if not values or all(v == 0 for v in values): return 0.0`;
`numerator = sum(values) ** 2`;
`denominator = len(values) * sum(v ** 2 for v in values)`;
`return numerator / denominator if denominator > 0 else 0.0`. -/
def jains_fairness (values : List ℚ) : ℚ :=
  if values = [] ∨ ∀ v ∈ values, v = 0 then 0
  else
    let numerator := values.sum ^ 2
    let denominator := (values.length : ℚ) * (values.map (fun v => v ^ 2)).sum
    if 0 < denominator then numerator / denominator else 0

/-! ## Data model: `backend/api/schemas.py` -/

/-- Job priorities: `Literal["low", "med", "high"]`. -/
inductive Priority
| low
| med
| high
deriving DecidableEq, Repr

/-- Job states: `Literal["queued", "running", "completed", "preempted"]`. -/
inductive JobState
| queued
| running
| completed
| preempted
deriving DecidableEq, Repr

/-- Embedding of the `Job` model (`backend/api/schemas.py`). Python floats
become `ℚ`, Python ints become `ℤ`, optional floats become `Option ℚ`.
`remaining_time` is `Optional[float]` in Python but every job built by
`JobGenerator._generate_loop` is constructed with `remaining_time = dur`,
so it is embedded as `ℚ`. -/
structure Job where
  id : String
  tenant_id : String
  cpu : ℤ
  ram : ℤ
  gpus : ℤ
  priority : Priority
  arrival_time : ℚ
  start_time : Option ℚ := none
  end_time : Option ℚ := none
  preemption_time : Option ℚ := none
  last_start_time : Option ℚ := none
  remaining_time : ℚ
  duration : ℚ
  wait_time : ℚ := 0
  state : JobState := .queued
deriving DecidableEq, Repr

/-- Python truthiness of an `Optional[float]`: `None` and `0.0` are falsy. -/
def truthy : Option ℚ → Bool
| none => false
| some s => decide (s ≠ 0)

/-- Embedding of the `Node` model (`backend/api/schemas.py`). -/
structure Node where
  id : String
  total_cpu : ℤ
  total_ram : ℤ
  total_gpus : ℤ
  used_cpu : ℤ := 0
  used_ram : ℤ := 0
  used_gpus : ℤ := 0
  running_jobs : List String := []
deriving DecidableEq, Repr

/-- `Node.can_allocate`: all three resource dimensions have free headroom. -/
def Node.can_allocate (n : Node) (j : Job) : Bool :=
  decide (n.total_cpu - n.used_cpu ≥ j.cpu) &&
  decide (n.total_ram - n.used_ram ≥ j.ram) &&
  decide (n.total_gpus - n.used_gpus ≥ j.gpus)

/-- `Node.allocate`: raises `ValueError` (modelled as `none`) when
`can_allocate` is false — the `raise` precedes every mutation, so the node is
unchanged on failure; otherwise adds the job's request to the usage counters
and appends the job id to `running_jobs`. -/
def Node.allocate (n : Node) (j : Job) : Option Node :=
  if n.can_allocate j then
    some { n with
      used_cpu := n.used_cpu + j.cpu
      used_ram := n.used_ram + j.ram
      used_gpus := n.used_gpus + j.gpus
      running_jobs := n.running_jobs ++ [j.id] }
  else
    none

/-- `Node.release`: a no-op unless `job.id in self.running_jobs`; otherwise
subtracts the job's request and removes the first occurrence of the id
(`list.remove`). -/
def Node.release (n : Node) (j : Job) : Node :=
  if j.id ∈ n.running_jobs then
    { n with
      used_cpu := n.used_cpu - j.cpu
      used_ram := n.used_ram - j.ram
      used_gpus := n.used_gpus - j.gpus
      running_jobs := n.running_jobs.erase j.id }
  else
    n

/-- Embedding of the `Tenant` model (`backend/models/tenant.py`). -/
structure Tenant where
  id : String
  submitted_jobs : List Job := []
  completed_jobs : List Job := []
  preempted_jobs : List Job := []
deriving DecidableEq, Repr

/-- Embedding of `Tenant.avg_wait_time` (`backend/models/tenant.py`):
returns 0.0 with no completed jobs, else
`sum((job.start_time - job.arrival_time) for job in completed_jobs if job.start_time)`
divided by `len(completed_jobs)`. The filter `if job.start_time` is Python
truthiness: jobs with `start_time` equal to `None` or `0.0` are skipped. -/
def avg_wait_time (completed_jobs : List Job) : ℚ :=
  if completed_jobs = [] then 0
  else
    (completed_jobs.filterMap (fun j =>
        if truthy j.start_time then some ((j.start_time.getD 0) - j.arrival_time)
        else none)).sum / (completed_jobs.length : ℚ)

/-- Modelled from the spec's words only, for comparison with `avg_wait_time`
(spec §4.5 Results: `avg_wait: {tenant_id → mean wait_time over completed}`):
the mean of `wait_time` over the tenant's completed jobs. -/
def spec_avg_wait (completed_jobs : List Job) : ℚ :=
  if completed_jobs = [] then 0
  else (completed_jobs.map (fun j => j.wait_time)).sum / (completed_jobs.length : ℚ)

/-- Embedding of the `avg_wait` entry of `SimulationEngine._collect_results`:
`avg_wait = {t.id: t.avg_wait_time() for t in self.tenants}`. -/
def collect_avg_wait (tenants : List Tenant) : List (String × ℚ) :=
  tenants.map (fun t => (t.id, avg_wait_time t.completed_jobs))

/-! ## Schedulers: `backend/schedulers/fifo_scheduler.py` and
`backend/schedulers/stf_scheduler.py` -/

/-- `priority_value` as defined identically in `FIFOScheduler`,
`ShortestTimeFirstScheduler` and `backend/utils/job_utils.py`:
low=1, med=2, high=3 (the `mapping.get(priority, 0)` default 0 is
unreachable because `priority` is one of the three literals). -/
def priority_value : Priority → ℤ
| .low => 1
| .med => 2
| .high => 3

/-- The per-entry test of `FIFOScheduler.find_victim`: the victim's priority
is strictly lower than the incoming job's, and the victim's node still
satisfies all three capacity constraints after swapping victim out and
incoming in. -/
def fifo_victim_pred (incoming_job : Job) (e : ℚ × Job × Node) : Bool :=
  let (_, victim_job, node) := e
  decide (priority_value victim_job.priority < priority_value incoming_job.priority) &&
  (decide (node.used_cpu - victim_job.cpu + incoming_job.cpu ≤ node.total_cpu) &&
   decide (node.used_ram - victim_job.ram + incoming_job.ram ≤ node.total_ram) &&
   decide (node.used_gpus - victim_job.gpus + incoming_job.gpus ≤ node.total_gpus))

/-- Embedding of `FIFOScheduler.find_victim`: iterate over the running-heap
entries in list order and return the first entry satisfying
`fifo_victim_pred`, else `None`. -/
def fifo_find_victim (incoming_job : Job) (running_jobs : List (ℚ × Job × Node)) :
    Option (ℚ × Job × Node) :=
  running_jobs.find? (fifo_victim_pred incoming_job)

/-- The per-entry test of `ShortestTimeFirstScheduler.find_victim`:
`incoming.remaining_time < victim.remaining_time`, or equal remaining times
and strictly higher incoming priority; and the resource swap on the victim's
node is feasible in all three dimensions. -/
def srtf_victim_pred (incoming_job : Job) (e : ℚ × Job × Node) : Bool :=
  let (_, victim_job, node) := e
  (decide (incoming_job.remaining_time < victim_job.remaining_time) ||
   (decide (incoming_job.remaining_time = victim_job.remaining_time) &&
    decide (priority_value incoming_job.priority > priority_value victim_job.priority))) &&
  (decide (node.used_cpu - victim_job.cpu + incoming_job.cpu ≤ node.total_cpu) &&
   decide (node.used_ram - victim_job.ram + incoming_job.ram ≤ node.total_ram) &&
   decide (node.used_gpus - victim_job.gpus + incoming_job.gpus ≤ node.total_gpus))

/-- Embedding of `ShortestTimeFirstScheduler.find_victim`. -/
def srtf_find_victim (incoming_job : Job) (running_jobs : List (ℚ × Job × Node)) :
    Option (ℚ × Job × Node) :=
  running_jobs.find? (srtf_victim_pred incoming_job)

/-! ## Engine remaining-time updates: `backend/simulation/engine.py` -/

/-- Step 3 of `SimulationEngine.run`: for a running job with truthy
`last_start_time`, `elapsed = now - job.last_start_time` and
`job.remaining_time = max(0.0, job.duration - elapsed)`. -/
def run_step3_remaining (duration last_start now : ℚ) : ℚ :=
  max 0 (duration - (now - last_start))

/-- The update in `SimulationEngine._handle_running_jobs` (step 4): for a
running job with truthy `last_start_time`, `elapsed = now - job.last_start_time`
and `job.remaining_time = max(0.0, job.remaining_time - elapsed)`. -/
def handle_running_remaining (remaining last_start now : ℚ) : ℚ :=
  max 0 (remaining - (now - last_start))

/-- The combined effect of one main-loop iteration (step 3 at wall time
`now3`, then step 4 at wall time `now4`) on a still-running job's
`remaining_time`. `last_start_time` is not refreshed between the two steps. -/
def iteration_remaining (duration last_start now3 now4 : ℚ) : ℚ :=
  handle_running_remaining (run_step3_remaining duration last_start now3) last_start now4

/-! ## Job generator: `backend/simulation/job_generator.py` -/

/-- The two arrival models accepted by `SimulationConfig.arrival_model`. -/
inductive ArrivalModel
| poisson
| fixed
deriving DecidableEq, Repr

/-- Embedding of the inter-arrival draw in `JobGenerator._generate_loop`:
`interval = random.expovariate(self.config.arrival_rate)`. The random draw is
modelled by the oracle argument `exp_sample` — the value returned by
`random.expovariate(arrival_rate)`, which can be any positive real. The code
never consults `arrival_model`: the exponential sample is used for both
models. -/
def generator_interval (arrival_model : ArrivalModel) (arrival_rate : ℚ)
    (exp_sample : ℚ) : ℚ :=
  exp_sample

/-! ## Per-job state transitions of the engine and schedulers, for the
`remaining_time == 0 ⇔ state = Completed` invariant. -/

/-- `SimulationEngine._handle_completion` effects on the job: state becomes
completed, `end_time = now`, `remaining_time = 0.0`. -/
def handle_completion (j : Job) (now : ℚ) : Job :=
  { j with state := .completed, end_time := some now, remaining_time := 0 }

/-- `_allocate_job` effects on the job (identical in both schedulers):
on first start set `start_time`, `wait_time = now - arrival_time`; on a
resume with truthy `preemption_time` accumulate
`wait_time += now - preemption_time` and clear it; in all cases refresh
`last_start_time = now` and set state running. -/
def allocate_job_fields (j : Job) (now : ℚ) : Job :=
  match j.start_time with
  | none =>
    { j with
      start_time := some now
      wait_time := now - j.arrival_time
      last_start_time := some now
      state := .running }
  | some _ =>
    if truthy j.preemption_time then
      { j with
        wait_time := j.wait_time + (now - j.preemption_time.getD 0)
        preemption_time := none
        last_start_time := some now
        state := .running }
    else
      { j with last_start_time := some now, state := .running }

/-- `preempt_and_allocate` effects on the victim (identical in both
schedulers): `elapsed = now - victim_job.last_start_time` (the victim is
running, so `last_start_time` is set — Python would raise otherwise),
`remaining_time = max(0, remaining_time - elapsed)`, state preempted,
`preemption_time = now`. -/
def preempt_fields (j : Job) (now ls : ℚ) : Job :=
  { j with
    remaining_time := max 0 (j.remaining_time - (now - ls))
    state := .preempted
    preemption_time := some now }

/-- Step 3 of `SimulationEngine.run` as a job update: guarded by
`job.state == "running" and job.last_start_time` (Python truthiness), set
`remaining_time = max(0.0, job.duration - (now - last_start_time))`. -/
def advance_running (j : Job) (now : ℚ) : Job :=
  if j.state = .running ∧ truthy j.last_start_time then
    { j with remaining_time := max 0 (j.duration - (now - j.last_start_time.getD 0)) }
  else j

/-- `_handle_running_jobs` on one popped heap entry: guarded update of
`remaining_time` (same guard as step 3 but subtracting from the current
`remaining_time`), then completion when `remaining_time <= 0.0`, else the
entry is pushed back still running. -/
def sweep_entry (j : Job) (now : ℚ) : Job :=
  let j' :=
    if j.state = .running ∧ truthy j.last_start_time then
      { j with remaining_time := max 0 (j.remaining_time - (now - j.last_start_time.getD 0)) }
    else j
  if j'.remaining_time ≤ 0 then handle_completion j' now else j'

/-- A single scheduler-driven transition on one job during the engine's
event-dispatch phase (step 2): allocation of a ready (queued or preempted)
job, or preemption of a running victim. -/
inductive SchedStep : Job → Job → Prop
| alloc (j : Job) (now : ℚ) (hq : j.state = .queued ∨ j.state = .preempted) :
    SchedStep j (allocate_job_fields j now)
| preempt (j : Job) (now ls : ℚ) (hrun : j.state = .running)
    (hls : j.last_start_time = some ls) :
    SchedStep j (preempt_fields j now ls)

/-- The effect of one full main-loop iteration on a single job: a finite
sequence of scheduler transitions during step 2, then — exactly when the job
ends step 2 running — the step-3 advance and the step-4 completion sweep. -/
inductive IterStep : Job → Job → Prop
| notRunning (j j' : Job) (h : Relation.ReflTransGen SchedStep j j')
    (hnr : j'.state ≠ .running) : IterStep j j'
| running (j j' : Job) (now3 now4 : ℚ) (h : Relation.ReflTransGen SchedStep j j')
    (hr : j'.state = .running) :
    IterStep j (sweep_entry (advance_running j' now3) now4)

/-- Jobs observable at an iteration boundary: spawned by
`JobGenerator._generate_loop` (state queued, `remaining_time = dur` with
`dur = random.uniform(*duration_range)` and both range endpoints `> 0`),
then any number of engine iterations. -/
inductive JobReachable : Job → Prop
| spawn (j : Job) (hd : 0 < j.duration) (hrem : j.remaining_time = j.duration)
    (hstate : j.state = .queued) : JobReachable j
| step (j j' : Job) : JobReachable j → IterStep j j' → JobReachable j'

/-! ## The event queue: `backend/simulation/event.py`,
`backend/simulation/event_queue.py`, and the CPython `heapq` routines they
call. `EventQueue._queue` is a plain Python list manipulated only through
`heapq.heappush` / `heapq.heappop`, so those two routines are embedded
verbatim (over any linear order, instantiated below at the event keys). -/

/-- The loop of CPython's `heapq._siftdown(heap, startpos, pos)`, with the
local variable `newitem = heap[pos]` made an explicit argument (both call
sites pass exactly `heap[pos]`): while `pos > startpos`, compare `newitem`
with the parent at `(pos - 1) >> 1`; if `newitem < parent`, move the parent
down into `pos` and continue from the parent position, else stop; finally
store `newitem` at the resting position. -/
def siftdownAux {α : Type} [LinearOrder α] (heap : List α) (startpos pos : ℕ)
    (newitem : α) : List α :=
  if h : startpos < pos then
    let parentpos := (pos - 1) / 2
    match heap[parentpos]? with
    | some parent =>
      if newitem < parent then
        siftdownAux (heap.set pos parent) startpos parentpos newitem
      else
        heap.set pos newitem
    | none => heap.set pos newitem
  else
    heap.set pos newitem
termination_by pos
decreasing_by
  simp_wf
  omega

/-- The loop of CPython's `heapq._siftup(heap, pos)`, with
`newitem = heap[pos]` an explicit argument: walk the hole at `pos` down,
always to the smaller child (`childpos = rightpos` when
`rightpos < endpos and not heap[childpos] < heap[rightpos]`), moving that
child up; at a leaf, store `newitem` and bubble it back up with
`_siftdown(heap, startpos, pos)`. Out-of-range reads cannot occur in Python;
`getD` uses `newitem` as the (never taken) default. -/
def siftupAux {α : Type} [LinearOrder α] (heap : List α) (startpos pos : ℕ)
    (newitem : α) : List α :=
  if h : 2 * pos + 1 < heap.length then
    let childpos :=
      if 2 * pos + 2 < heap.length ∧
          ¬ (heap.getD (2 * pos + 1) newitem < heap.getD (2 * pos + 2) newitem)
      then 2 * pos + 2 else 2 * pos + 1
    siftupAux (heap.set pos (heap.getD childpos newitem)) startpos childpos newitem
  else
    siftdownAux (heap.set pos newitem) startpos pos newitem
termination_by heap.length - pos
decreasing_by
  simp_wf
  split <;> omega

/-- CPython `heapq.heappush(heap, item)`: `heap.append(item)` then
`_siftdown(heap, 0, len(heap)-1)` (whose `newitem` is the appended item). -/
def heappush {α : Type} [LinearOrder α] (heap : List α) (item : α) : List α :=
  siftdownAux (heap ++ [item]) 0 heap.length item

/-- CPython `heapq.heappop(heap)`: `lastelt = heap.pop()` (raises on an empty
list, modelled as `none`); if the heap is still nonempty, save `heap[0]` as
the return value, overwrite position 0 with `lastelt`, `_siftup(heap, 0)`
(whose `newitem` is `lastelt`), else return `lastelt` itself. -/
def heappop {α : Type} [LinearOrder α] (heap : List α) : Option (α × List α) :=
  match heap with
  | [] => none
  | x :: xs =>
    let lastelt := (x :: xs).getLast (by simp)
    match (x :: xs).dropLast with
    | [] => some (lastelt, [])
    | y :: ys => some (y, siftupAux ((y :: ys).set 0 lastelt) 0 0 lastelt)

/-- The binary min-heap invariant `heapq` maintains on the backing list:
every element at a positive index is `≥` the parent at `(j - 1) / 2`. -/
def IsHeap {α : Type} [LinearOrder α] (l : List α) : Prop :=
  ∀ j : ℕ, ∀ hj : j < l.length, 0 < j →
    l.get ⟨(j - 1) / 2, by omega⟩ ≤ l.get ⟨j, hj⟩

/-- The heap entries of `EventQueue`: `make_event(time, type, payload)`
returns `(time, next(_counter_gen), Event(...))`, and `heapq` compares the
tuples lexicographically. Every entry carries a distinct counter value, so
the `Event` payload is never reached by a comparison; the effective key is
`(time, seq)` under the lexicographic order. -/
abbrev EventKey : Type := ℚ ×ₗ ℕ

/-- Build an event key from a time and the sequence number drawn from
`_counter_gen` (`make_event` in `backend/simulation/event.py`). -/
def mkKey (t : ℚ) (s : ℕ) : EventKey := toLex (t, s)

/-- Push/pop traces of an `EventQueue` starting empty, with arbitrary event
times. A state records the backing list, the chronological list of popped
keys, and a lower bound on the next value of the process-wide `_counter_gen`
(each push draws a seq `≥` the counter — other `make_event` calls may have
advanced it — and leaves the counter past the drawn value). -/
inductive EQTraceAny : List EventKey → List EventKey → ℕ → Prop
| empty : EQTraceAny [] [] 0
| push (l p : List EventKey) (c : ℕ) (t : ℚ) (s : ℕ) (hs : c ≤ s) :
    EQTraceAny l p c → EQTraceAny (heappush l (mkKey t s)) p (s + 1)
| pop (l p : List EventKey) (c : ℕ) (x : EventKey) (l' : List EventKey) :
    EQTraceAny l p c → heappop l = some (x, l') → EQTraceAny l' (p ++ [x]) c

/-- Traces in which, additionally, event times are nondecreasing from push to
push — as in the engine, where every pushed event's `time` is the monotone
wall clock `time.time()` read at push. The last component tracks the latest
pushed time. -/
inductive EQTrace : List EventKey → List EventKey → ℕ → ℚ → Prop
| empty (t0 : ℚ) : EQTrace [] [] 0 t0
| push (l p : List EventKey) (c : ℕ) (t0 t : ℚ) (s : ℕ) (hs : c ≤ s)
    (ht : t0 ≤ t) :
    EQTrace l p c t0 → EQTrace (heappush l (mkKey t s)) p (s + 1) t
| pop (l p : List EventKey) (c : ℕ) (t0 : ℚ) (x : EventKey)
    (l' : List EventKey) :
    EQTrace l p c t0 → heappop l = some (x, l') → EQTrace l' (p ++ [x]) c t0

/-- Invariant holding at every point of an iteration: `remaining_time` is
nonnegative, zero for completed jobs, and positive for still-queued jobs. -/
def MidInv (j : Job) : Prop :=
  0 ≤ j.remaining_time ∧
  (j.state = .completed → j.remaining_time = 0) ∧
  (j.state = .queued → 0 < j.remaining_time)

/-- Invariant holding at iteration boundaries: additionally, running jobs
(which have passed the completion sweep) have positive `remaining_time`. -/
def JobInv (j : Job) : Prop :=
  0 ≤ j.remaining_time ∧
  (j.state = .completed → j.remaining_time = 0) ∧
  ((j.state = .queued ∨ j.state = .running) → 0 < j.remaining_time)

/-! ## Concrete instances used by counterexamples and witnesses. -/

/-- A completed job that was preempted once: first started at 2 (initial
wait 2), preempted at 4, resumed at 7 (accumulating wait 3, total
`wait_time = 5`), completed at 9. -/
def jC1 : Job :=
  { id := "j1", tenant_id := "t1", cpu := 1, ram := 512, gpus := 0,
    priority := .med, arrival_time := 0, start_time := some 2,
    end_time := some 9, preemption_time := none, last_start_time := some 7,
    remaining_time := 0, duration := 5, wait_time := 5, state := .completed }

/-- A tenant whose only completed job is the once-preempted `jC1`. -/
def tenantC1 : Tenant := { id := "t1", completed_jobs := [jC1] }

/-- A completed job that was never preempted: arrived at 1, started at 3
(`wait_time = 3 - 1 = 2`), completed at 4. -/
def jC1w : Job :=
  { id := "j2", tenant_id := "t2", cpu := 1, ram := 512, gpus := 0,
    priority := .med, arrival_time := 1, start_time := some 3,
    end_time := some 4, preemption_time := none, last_start_time := some 3,
    remaining_time := 0, duration := 1, wait_time := 2, state := .completed }

/-- A tenant whose only completed job is the never-preempted `jC1w`. -/
def tenantC1w : Tenant := { id := "t2", completed_jobs := [jC1w] }

/-- A node with free capacity for `jobC5`. -/
def nodeC5 : Node := { id := "n5", total_cpu := 4, total_ram := 4096, total_gpus := 1 }

/-- A job fitting on `nodeC5`. -/
def jobC5 : Job :=
  { id := "j5", tenant_id := "t5", cpu := 2, ram := 1024, gpus := 1,
    priority := .low, arrival_time := 0, remaining_time := 3, duration := 3 }

/-- A node with one unrelated running job, for the allocate/release
round-trip. -/
def nodeC10 : Node :=
  { id := "n10", total_cpu := 8, total_ram := 8192, total_gpus := 2,
    used_cpu := 1, used_ram := 100, used_gpus := 0, running_jobs := ["other"] }

/-- A job fitting on `nodeC10` and not already running there. -/
def jobC10 : Job :=
  { id := "j10", tenant_id := "t10", cpu := 2, ram := 200, gpus := 1,
    priority := .high, arrival_time := 0, remaining_time := 2, duration := 2 }

/-- A high-priority incoming job for the FIFO victim search. -/
def jobC3 : Job :=
  { id := "j3", tenant_id := "t3", cpu := 2, ram := 1024, gpus := 0,
    priority := .high, arrival_time := 0, remaining_time := 4, duration := 4 }

/-- A low-priority running victim for the FIFO victim search. -/
def victimC3 : Job :=
  { id := "v3", tenant_id := "t3v", cpu := 2, ram := 1024, gpus := 0,
    priority := .low, arrival_time := 0, start_time := some 1,
    last_start_time := some 1, remaining_time := 9, duration := 10,
    state := .running }

/-- The node running `victimC3`, full on CPU. -/
def nodeC3 : Node :=
  { id := "n3", total_cpu := 2, total_ram := 2048, total_gpus := 0,
    used_cpu := 2, used_ram := 1024, used_gpus := 0, running_jobs := ["v3"] }

/-- A short incoming job for the SRTF victim search. -/
def jobC4 : Job :=
  { id := "j4", tenant_id := "t4", cpu := 1, ram := 512, gpus := 0,
    priority := .med, arrival_time := 0, remaining_time := 2, duration := 2 }

/-- A long-remaining running victim for the SRTF victim search. -/
def victimC4 : Job :=
  { id := "v4", tenant_id := "t4v", cpu := 1, ram := 512, gpus := 0,
    priority := .med, arrival_time := 0, start_time := some 1,
    last_start_time := some 1, remaining_time := 10, duration := 12,
    state := .running }

/-- The node running `victimC4`, full on CPU. -/
def nodeC4 : Node :=
  { id := "n4", total_cpu := 1, total_ram := 1024, total_gpus := 0,
    used_cpu := 1, used_ram := 512, used_gpus := 0, running_jobs := ["v4"] }

/-- A freshly generated job: queued, `remaining_time = duration = 1`. -/
def jC7a : Job :=
  { id := "j7", tenant_id := "t7", cpu := 1, ram := 1, gpus := 0,
    priority := .low, arrival_time := 0, remaining_time := 1, duration := 1 }

/-- `jC7a` after being allocated at time 1 and surviving the iteration's
advance and sweep (both at time 1). -/
def jC7run : Job := sweep_entry (advance_running (allocate_job_fields jC7a 1) 1) 1

/-- `jC7run` preempted at time 7 — long after its remaining service time
elapsed — so `max(0, remaining_time - elapsed)` clamps `remaining_time`
to 0 while the state becomes preempted. -/
def jC7pre : Job := preempt_fields jC7run 7 1

/-- Cauchy–Schwarz for list sums: `(Σ xᵢ)² ≤ n · Σ xᵢ²`. -/
lemma sq_sum_le_len_mul_sum_sq (l : List ℚ) :
    l.sum ^ 2 ≤ (l.length : ℚ) * (l.map (fun v => v ^ 2)).sum := by
  induction l with
  | nil => simp
  | cons x xs ih =>
    simp only [List.sum_cons, List.map_cons, List.length_cons]
    push_cast
    have hn0 : (0 : ℚ) ≤ (xs.length : ℚ) := by positivity
    rcases eq_or_ne xs [] with h | h
    · subst h; simp
    · have hn1 : (1 : ℚ) ≤ (xs.length : ℚ) := by
        have h1 : 1 ≤ xs.length := Nat.one_le_iff_ne_zero.mpr (by simpa using h)
        exact_mod_cast h1
      nlinarith [sq_nonneg ((xs.length : ℚ) * x - xs.sum), ih, hn1,
        mul_nonneg hn0 (sub_nonneg.mpr ih)]

/-- For nonnegative entries, `Σ xᵢ² ≤ (Σ xᵢ)²`. -/
lemma sum_sq_le_sq_sum (l : List ℚ) (h : ∀ v ∈ l, 0 ≤ v) :
    (l.map (fun v => v ^ 2)).sum ≤ l.sum ^ 2 := by
  induction l with
  | nil => simp
  | cons x xs ih =>
    simp only [List.sum_cons, List.map_cons]
    have hx : 0 ≤ x := h x (List.mem_cons_self x xs)
    have hxs : ∀ v ∈ xs, 0 ≤ v := fun v hv => h v (List.mem_cons_of_mem x hv)
    have hs : 0 ≤ xs.sum := List.sum_nonneg hxs
    nlinarith [ih hxs]

/-- Sum of positive rationals over a nonempty list is positive. -/
lemma list_sum_pos (l : List ℚ) (h : ∀ v ∈ l, 0 < v) (hne : l ≠ []) :
    0 < l.sum :=
  List.sum_pos l h hne

/-- C9: `jains_fairness` of a vector of n equal positive values is 1; of the
vector `[1,0,…,0]` of length n it is 1/n; of the empty vector or any all-zero
vector it is 0; and for every vector of n positive values its result lies in
the interval `[1/n, 1]`. -/
theorem jains_fairness_claim :
    (∀ (n : ℕ) (x : ℚ), n ≠ 0 → 0 < x →
      jains_fairness (List.replicate n x) = 1)
  ∧ (∀ n : ℕ, n ≠ 0 →
      jains_fairness (1 :: List.replicate (n - 1) 0) = 1 / (n : ℚ))
  ∧ jains_fairness [] = 0
  ∧ (∀ l : List ℚ, (∀ v ∈ l, v = 0) → jains_fairness l = 0)
  ∧ (∀ l : List ℚ, l ≠ [] → (∀ v ∈ l, 0 < v) →
      1 / (l.length : ℚ) ≤ jains_fairness l ∧ jains_fairness l ≤ 1) := by
  refine ⟨?_, ?_, ?_, ?_, ?_⟩
  · intro n x hn hx
    have hmem : x ∈ List.replicate n x := by
      rw [List.mem_replicate]; exact ⟨hn, rfl⟩
    have hcond : ¬ (List.replicate n x = [] ∨ ∀ v ∈ List.replicate n x, v = 0) := by
      push_neg
      exact ⟨by simpa using hn, x, hmem, hx.ne'⟩
    have hnQ : (0 : ℚ) < (n : ℚ) := by exact_mod_cast Nat.pos_of_ne_zero hn
    simp only [jains_fairness, hcond, if_false, List.sum_replicate,
      List.map_replicate, List.length_replicate, nsmul_eq_mul]
    rw [if_pos (mul_pos hnQ (mul_pos hnQ (pow_pos hx 2)))]
    field_simp
    ring
  · intro n hn
    have hcond : ¬ ((1 :: List.replicate (n - 1) (0:ℚ)) = [] ∨
        ∀ v ∈ (1 :: List.replicate (n - 1) (0:ℚ)), v = 0) := by
      push_neg
      exact ⟨by simp, 1, List.mem_cons_self _ _, one_ne_zero⟩
    have hnQ : (0 : ℚ) < (n : ℚ) := by exact_mod_cast Nat.pos_of_ne_zero hn
    have hsum : (1 :: List.replicate (n - 1) (0:ℚ)).sum = 1 := by
      simp [List.sum_replicate]
    have hmap : ((1 :: List.replicate (n - 1) (0:ℚ)).map (fun v => v ^ 2)).sum = 1 := by
      simp [List.map_replicate, List.sum_replicate]
    have hlen : ((1 :: List.replicate (n - 1) (0:ℚ)).length : ℚ) = (n : ℚ) := by
      simp only [List.length_cons, List.length_replicate]
      exact_mod_cast Nat.succ_pred_eq_of_pos (Nat.pos_of_ne_zero hn)
    simp only [jains_fairness]
    rw [if_neg hcond]
    simp only [hsum, hmap, hlen, one_pow, mul_one]
    rw [if_pos hnQ]
  · simp [jains_fairness]
  · intro l hall
    simp only [jains_fairness]
    rw [if_pos (Or.inr hall)]
  · intro l hne hpos
    have hn : (0 : ℚ) < (l.length : ℚ) := by
      exact_mod_cast List.length_pos.mpr hne
    have hS : 0 < l.sum := list_sum_pos l hpos hne
    have hQ : 0 < (l.map (fun v => v ^ 2)).sum := by
      apply list_sum_pos
      · intro v hv
        simp only [List.mem_map] at hv
        obtain ⟨w, hw, rfl⟩ := hv
        exact pow_pos (hpos w hw) 2
      · simpa using hne
    have hD : 0 < (l.length : ℚ) * (l.map (fun v => v ^ 2)).sum := mul_pos hn hQ
    have hcond : ¬ (l = [] ∨ ∀ v ∈ l, v = 0) := by
      push_neg
      obtain ⟨v, hv⟩ := List.exists_mem_of_ne_nil l hne
      exact ⟨hne, v, hv, (hpos v hv).ne'⟩
    simp only [jains_fairness]
    rw [if_neg hcond, if_pos hD]
    constructor
    · have h1 : (l.map (fun v => v ^ 2)).sum ≤ l.sum ^ 2 :=
        sum_sq_le_sq_sum l (fun v hv => (hpos v hv).le)
      rw [div_le_div_iff hn hD]
      nlinarith [h1, hn]
    · exact div_le_one_of_le (sq_sum_le_len_mul_sum_sq l) hD.le

/-- Witness for C9: the theorem applied at concrete inputs. -/
theorem jains_fairness_claim_witness :
    jains_fairness (List.replicate 3 (2:ℚ)) = 1 ∧
    jains_fairness [] = 0 ∧
    (1 / 2 ≤ jains_fairness [2, 1] ∧ jains_fairness [2, 1] ≤ 1) := by
  refine ⟨jains_fairness_claim.1 3 2 (by norm_num) (by norm_num),
          jains_fairness_claim.2.2.1, ?_⟩
  have h := jains_fairness_claim.2.2.2.2 [2, 1] (by simp)
    (by intro v hv; simp only [List.mem_cons, List.not_mem_nil, or_false] at hv
        rcases hv with rfl | rfl <;> norm_num)
  simpa using h

/-- Decomposition of a successful `List.find?`: the found element satisfies
the predicate and is the first such element in list order. -/
lemma find?_some_decomp {α : Type} (p : α → Bool) (l : List α) (a : α)
    (h : l.find? p = some a) :
    p a = true ∧ ∃ l₁ l₂, l = l₁ ++ a :: l₂ ∧ ∀ e ∈ l₁, p e = false := by
  induction l with
  | nil => simp at h
  | cons x xs ih =>
    cases hpx : p x with
    | true =>
      rw [List.find?_cons_of_pos _ hpx] at h
      obtain rfl : x = a := by injection h
      exact ⟨hpx, [], xs, by simp, by simp⟩
    | false =>
      rw [List.find?_cons_of_neg _ (by simp [hpx])] at h
      obtain ⟨hpa, l₁, l₂, rfl, hall⟩ := ih h
      refine ⟨hpa, x :: l₁, l₂, rfl, ?_⟩
      intro e he
      rcases List.mem_cons.mp he with rfl | he'
      · exact hpx
      · exact hall e he'

/-- C5: `Node.allocate` fails exactly when `can_allocate` is false, i.e. when
at least one of the three resource dimensions lacks free headroom; on failure
the node is unchanged (the embedding returns `none`: the Python `raise`
precedes every mutation); on success usage grows by exactly the request in
each dimension and the job id is appended to the running set. -/
theorem node_allocate_claim (n : Node) (j : Job) :
    (n.allocate j = none ↔ n.can_allocate j = false)
  ∧ (n.can_allocate j = false ↔
      (n.total_cpu - n.used_cpu < j.cpu ∨ n.total_ram - n.used_ram < j.ram ∨
       n.total_gpus - n.used_gpus < j.gpus))
  ∧ (∀ n', n.allocate j = some n' →
      n'.used_cpu = n.used_cpu + j.cpu ∧ n'.used_ram = n.used_ram + j.ram ∧
      n'.used_gpus = n.used_gpus + j.gpus ∧
      n'.running_jobs = n.running_jobs ++ [j.id] ∧
      n'.id = n.id ∧ n'.total_cpu = n.total_cpu ∧
      n'.total_ram = n.total_ram ∧ n'.total_gpus = n.total_gpus) := by
  refine ⟨?_, ?_, ?_⟩
  · unfold Node.allocate
    cases hc : n.can_allocate j <;> simp [hc]
  · unfold Node.can_allocate
    simp only [Bool.and_eq_false_iff, decide_eq_false_iff_not, not_le]
    tauto
  · intro n' h
    unfold Node.allocate at h
    split at h
    · injection h with h'
      subst h'
      refine ⟨rfl, rfl, rfl, rfl, rfl, rfl, rfl, rfl⟩
    · exact absurd h (by simp)

/-- Witness for C5: the theorem applied at a concrete node and job. -/
theorem node_allocate_claim_witness :
    (nodeC5.allocate jobC5).isSome = true ∧
    ((nodeC5.allocate jobC5).getD nodeC5).used_cpu =
      nodeC5.used_cpu + jobC5.cpu := by
  rcases hEq : nodeC5.allocate jobC5 with _ | n'
  · exact absurd hEq (by decide)
  · exact ⟨rfl, ((node_allocate_claim nodeC5 jobC5).2.2 n' hEq).1⟩

/-- C10: for a job whose id is not already in the node's running set, a
successful `allocate` followed by `release` restores the node exactly. -/
theorem allocate_release_roundtrip (n : Node) (j : Job)
    (hid : j.id ∉ n.running_jobs) (n' : Node) (halloc : n.allocate j = some n') :
    n'.release j = n := by
  unfold Node.allocate at halloc
  split at halloc
  · injection halloc with h
    subst h
    unfold Node.release
    rw [if_pos (by simp)]
    have herase : (n.running_jobs ++ [j.id]).erase j.id = n.running_jobs := by
      rw [List.erase_append_right _ hid]
      simp
    cases n
    simp_all
  · exact absurd halloc (by simp)

/-- Witness for C10: the round-trip at a concrete node and job. -/
theorem allocate_release_roundtrip_witness :
    (nodeC10.allocate jobC10).isSome = true ∧
    ((nodeC10.allocate jobC10).getD nodeC10).release jobC10 = nodeC10 := by
  rcases hEq : nodeC10.allocate jobC10 with _ | n'
  · exact absurd hEq (by decide)
  · exact ⟨rfl, allocate_release_roundtrip nodeC10 jobC10 (by decide) n' hEq⟩

/-- Counterexample to C1 as stated: for a tenant whose completed job was
preempted once (`wait_time = 5` accumulated across the suspension, but
`start_time - arrival_time = 2`), the results record's `avg_wait` entry is 2,
not the mean `wait_time` 5: `Tenant.avg_wait_time` averages
`start_time - arrival_time`, ignoring `wait_time`. -/
theorem avg_wait_claim_counterexample :
    collect_avg_wait [tenantC1] = [("t1", 2)] ∧
    spec_avg_wait tenantC1.completed_jobs = 5 ∧
    avg_wait_time tenantC1.completed_jobs ≠ spec_avg_wait tenantC1.completed_jobs := by
  refine ⟨?_, ?_, ?_⟩ <;>
    norm_num [collect_avg_wait, avg_wait_time, spec_avg_wait, tenantC1, jC1,
      truthy, List.filterMap_cons, List.filterMap_nil]

/-- The sum `Tenant.avg_wait_time` computes coincides with the sum of
`wait_time` whenever every completed job has truthy `start_time` and
`wait_time = start_time - arrival_time`. -/
lemma filterMap_start_eq_map_wait (l : List Job)
    (h : ∀ j ∈ l, truthy j.start_time = true ∧
        j.wait_time = j.start_time.getD 0 - j.arrival_time) :
    (l.filterMap (fun j =>
        if truthy j.start_time then some ((j.start_time.getD 0) - j.arrival_time)
        else none)) = l.map (fun j => j.wait_time) := by
  induction l with
  | nil => rfl
  | cons x xs ih =>
    have hx := h x (List.mem_cons_self x xs)
    rw [List.filterMap_cons, List.map_cons]
    rw [if_pos hx.1, ← hx.2]
    rw [ih (fun j hj => h j (List.mem_cons_of_mem x hj))]

/-- C1 (amended): the results record's `avg_wait` maps every tenant to
`Σ (start_time − arrival_time)` over completed jobs with truthy `start_time`,
divided by the number of completed jobs — the wait before first start only.
It equals the mean of `wait_time` exactly for tenants none of whose completed
jobs accumulated post-preemption wait (i.e. `wait_time` still equals
`start_time − arrival_time`, and `start_time` is truthy). -/
theorem avg_wait_amended (tenants : List Tenant)
    (h : ∀ t ∈ tenants, ∀ j ∈ t.completed_jobs,
        truthy j.start_time = true ∧
        j.wait_time = j.start_time.getD 0 - j.arrival_time) :
    collect_avg_wait tenants =
      tenants.map (fun t => (t.id, spec_avg_wait t.completed_jobs)) := by
  unfold collect_avg_wait
  apply List.map_congr_left
  intro t ht
  have ht' := h t ht
  unfold avg_wait_time spec_avg_wait
  by_cases hc : t.completed_jobs = []
  · rw [if_pos hc, if_pos hc]
  · rw [if_neg hc, if_neg hc, filterMap_start_eq_map_wait _ ht']

/-- Witness for C1's amended theorem at a concrete tenant. -/
theorem avg_wait_amended_witness :
    collect_avg_wait [tenantC1w] =
      [("t2", spec_avg_wait tenantC1w.completed_jobs)] ∧
    spec_avg_wait tenantC1w.completed_jobs = 2 := by
  constructor
  · have h := avg_wait_amended [tenantC1w] (by
      intro t ht j hj
      simp only [List.mem_singleton] at ht
      subst ht
      simp only [tenantC1w, List.mem_singleton] at hj
      subst hj
      refine ⟨by decide, by norm_num [jC1w]⟩)
    simpa using h
  · norm_num [spec_avg_wait, tenantC1w, jC1w]

/-- C3: any victim returned by `FIFOScheduler.find_victim` has strictly lower
priority than the incoming job, its node satisfies all three capacity
constraints after the swap, it is the first qualifying entry in
heap-iteration order, and `None` is returned exactly when no running entry
qualifies. In particular FIFO-with-priority never preempts a job of equal or
higher priority. -/
theorem fifo_find_victim_claim (incoming : Job) (running : List (ℚ × Job × Node)) :
    (∀ ft vj nd, fifo_find_victim incoming running = some (ft, vj, nd) →
        priority_value vj.priority < priority_value incoming.priority
      ∧ nd.used_cpu - vj.cpu + incoming.cpu ≤ nd.total_cpu
      ∧ nd.used_ram - vj.ram + incoming.ram ≤ nd.total_ram
      ∧ nd.used_gpus - vj.gpus + incoming.gpus ≤ nd.total_gpus
      ∧ ∃ l₁ l₂, running = l₁ ++ (ft, vj, nd) :: l₂ ∧
          ∀ e ∈ l₁, fifo_victim_pred incoming e = false)
  ∧ (fifo_find_victim incoming running = none ↔
      ∀ e ∈ running, fifo_victim_pred incoming e = false) := by
  constructor
  · intro ft vj nd h
    obtain ⟨hp, l₁, l₂, heq, hall⟩ := find?_some_decomp _ _ _ h
    simp only [fifo_victim_pred, Bool.and_eq_true, decide_eq_true_eq] at hp
    obtain ⟨h1, ⟨h2, h3⟩, h4⟩ := hp
    exact ⟨h1, h2, h3, h4, l₁, l₂, heq, hall⟩
  · unfold fifo_find_victim
    rw [List.find?_eq_none]
    constructor
    · intro h e he
      exact Bool.not_eq_true _ ▸ (by simpa using h e he)
    · intro h e he
      simp [h e he]

/-- Witness for C3 at a concrete incoming job and running heap. -/
theorem fifo_find_victim_claim_witness :
    fifo_find_victim jobC3 [(5, victimC3, nodeC3)] = some (5, victimC3, nodeC3) ∧
    priority_value victimC3.priority < priority_value jobC3.priority := by
  have h : fifo_find_victim jobC3 [(5, victimC3, nodeC3)] =
      some (5, victimC3, nodeC3) := by decide
  exact ⟨h, ((fifo_find_victim_claim jobC3 [(5, victimC3, nodeC3)]).1
    5 victimC3 nodeC3 h).1⟩

/-- C4: any victim returned by `ShortestTimeFirstScheduler.find_victim` has
`incoming.remaining_time < victim.remaining_time`, or equal remaining times
and strictly higher incoming priority; the resource swap on the victim's node
is feasible in all three dimensions; and in particular SRTF never preempts a
victim whose `remaining_time` is strictly smaller than the incoming job's.
`None` is returned exactly when no running entry qualifies. -/
theorem srtf_find_victim_claim (incoming : Job) (running : List (ℚ × Job × Node)) :
    (∀ ft vj nd, srtf_find_victim incoming running = some (ft, vj, nd) →
        (incoming.remaining_time < vj.remaining_time ∨
          (incoming.remaining_time = vj.remaining_time ∧
           priority_value vj.priority < priority_value incoming.priority))
      ∧ nd.used_cpu - vj.cpu + incoming.cpu ≤ nd.total_cpu
      ∧ nd.used_ram - vj.ram + incoming.ram ≤ nd.total_ram
      ∧ nd.used_gpus - vj.gpus + incoming.gpus ≤ nd.total_gpus
      ∧ ¬ vj.remaining_time < incoming.remaining_time)
  ∧ (srtf_find_victim incoming running = none ↔
      ∀ e ∈ running, srtf_victim_pred incoming e = false) := by
  constructor
  · intro ft vj nd h
    obtain ⟨hp, _l₁, _l₂, _heq, _hall⟩ := find?_some_decomp _ _ _ h
    simp only [srtf_victim_pred, Bool.and_eq_true, Bool.or_eq_true,
      decide_eq_true_eq, gt_iff_lt] at hp
    obtain ⟨h1, ⟨h2, h3⟩, h4⟩ := hp
    refine ⟨h1, h2, h3, h4, ?_⟩
    rcases h1 with hlt | ⟨heq', _⟩
    · exact fun hc => absurd (hc.trans hlt) (lt_irrefl _)
    · exact fun hc => absurd heq' (ne_of_gt hc)
  · unfold srtf_find_victim
    rw [List.find?_eq_none]
    constructor
    · intro h e he
      exact Bool.not_eq_true _ ▸ (by simpa using h e he)
    · intro h e he
      simp [h e he]

/-- Witness for C4 at a concrete incoming job and running heap. -/
theorem srtf_find_victim_claim_witness :
    srtf_find_victim jobC4 [(11, victimC4, nodeC4)] = some (11, victimC4, nodeC4) ∧
    ¬ victimC4.remaining_time < jobC4.remaining_time := by
  have h : srtf_find_victim jobC4 [(11, victimC4, nodeC4)] =
      some (11, victimC4, nodeC4) := by decide
  exact ⟨h, ((srtf_find_victim_claim jobC4 [(11, victimC4, nodeC4)]).1
    11 victimC4 nodeC4 h).2.2.2.2⟩

/-- C2 is a bug in the code: step 3 recomputes `remaining_time` as
`max(0, duration - (now - last_start_time))` and step 4 immediately subtracts
the same elapsed interval again from that value. For a job with duration 10
started at time 0 (so at the previous iteration, at time 0, its
`remaining_time` was 10) an iteration at time 2 leaves `remaining_time = 6`,
not the owed service time `10 - 2 = 8` required by the claim: elapsed time is
double-counted, so `remaining_time` does not equal the service time still
owed. -/
theorem engine_remaining_double_subtract :
    iteration_remaining 10 0 2 2 = 6 ∧
    run_step3_remaining 10 0 2 = 8 ∧
    iteration_remaining 10 0 2 2 ≠ 10 - 2 := by
  refine ⟨?_, ?_, ?_⟩ <;>
    · simp only [iteration_remaining, run_step3_remaining, handle_running_remaining]
      norm_num [max_def]

/-- C8 is a bug in the code: `JobGenerator._generate_loop` always draws
`interval = random.expovariate(arrival_rate)` and never consults
`arrival_model`, so under `arrival_model = "fixed"` the inter-arrival
interval is the random exponential sample (here the oracle values 3 and 4),
not the constant `1 / arrival_rate = 1/2`. -/
theorem generator_fixed_interval_bug :
    generator_interval .fixed 2 3 = 3 ∧
    generator_interval .fixed 2 4 = 4 ∧
    generator_interval .fixed 2 3 ≠ 1 / 2 ∧
    generator_interval .fixed 2 3 ≠ generator_interval .fixed 2 4 := by
  refine ⟨rfl, rfl, ?_, ?_⟩ <;> norm_num [generator_interval]

/-- A single scheduler transition preserves the mid-iteration invariant. -/
lemma midinv_sched {j j' : Job} (h : MidInv j) (hs : SchedStep j j') : MidInv j' := by
  obtain ⟨h0, _hc, _hq⟩ := h
  cases hs with
  | alloc now hq =>
    unfold MidInv allocate_job_fields
    cases hst : j.start_time with
    | none => simp [hst, h0]
    | some s =>
      by_cases hp : truthy j.preemption_time = true <;> simp [hst, hp, h0]
  | preempt now ls hrun hls =>
    unfold MidInv preempt_fields
    simp

/-- Any sequence of scheduler transitions preserves the invariant. -/
lemma midinv_rtg {j j' : Job} (h : MidInv j)
    (hs : Relation.ReflTransGen SchedStep j j') : MidInv j' := by
  induction hs with
  | refl => exact h
  | tail _steps hstep ih => exact midinv_sched ih hstep

/-- One full engine iteration takes the boundary invariant to itself. -/
lemma jobinv_iter {j j' : Job} (h : JobInv j) (hi : IterStep j j') : JobInv j' := by
  have hmid : MidInv j := ⟨h.1, h.2.1, fun hq => h.2.2 (Or.inl hq)⟩
  cases hi with
  | notRunning j' hrtg hnr =>
    have hm := midinv_rtg hmid hrtg
    exact ⟨hm.1, hm.2.1, fun hqr => by
      rcases hqr with hq | hr
      · exact hm.2.2 hq
      · exact absurd hr hnr⟩
  | running j' now3 now4 hrtg hr =>
    have hm := midinv_rtg hmid hrtg
    have ha0 : 0 ≤ (advance_running j' now3).remaining_time := by
      unfold advance_running
      split
      · simp
      · exact hm.1
    have hastate : (advance_running j' now3).state = j'.state := by
      unfold advance_running
      split <;> rfl
    unfold sweep_entry
    set a := advance_running j' now3 with ha
    by_cases hg : a.state = .running ∧ truthy a.last_start_time = true
    · rw [if_pos hg]
      by_cases hle :
          max 0 (a.remaining_time - (now4 - a.last_start_time.getD 0)) ≤ 0
      · rw [if_pos (by simpa using hle)]
        unfold handle_completion JobInv
        simp
      · rw [if_neg (by simpa using hle)]
        unfold JobInv
        push_neg at hle
        simp only [hastate, hr]
        exact ⟨le_max_left _ _, by simp, fun _ => hle⟩
    · rw [if_neg hg]
      by_cases hle : a.remaining_time ≤ 0
      · rw [if_pos hle]
        unfold handle_completion JobInv
        simp
      · rw [if_neg hle]
        push_neg at hle
        unfold JobInv
        simp only [hastate, hr]
        exact ⟨ha0, by simp [hastate, hr], fun _ => hle⟩

/-- Every reachable job satisfies the boundary invariant. -/
lemma jobinv_reachable {j : Job} (h : JobReachable j) : JobInv j := by
  induction h with
  | spawn j hd hrem hstate =>
    refine ⟨by rw [hrem]; exact hd.le, fun hc => ?_, fun _ => by rw [hrem]; exact hd⟩
    rw [hstate] at hc
    exact absurd hc (by simp)
  | step j j' _h hi ih => exact jobinv_iter ih hi

/-- C7 (amended): after every engine iteration, a Completed job has
`remaining_time = 0` and a Queued or Running job has `remaining_time > 0`;
hence `remaining_time = 0` implies the state is Completed or Preempted. A
Preempted job, however, can have `remaining_time = 0` (when preemption
happens after its remaining service time already elapsed), so the claimed
equivalence holds in all states except Preempted. -/
theorem remaining_zero_iff_completed_amended (j : Job) (h : JobReachable j) :
    (j.state = .completed → j.remaining_time = 0)
  ∧ (j.remaining_time = 0 → j.state = .completed ∨ j.state = .preempted)
  ∧ ((j.state = .queued ∨ j.state = .running) → 0 < j.remaining_time) := by
  have hi := jobinv_reachable h
  refine ⟨hi.2.1, fun h0 => ?_, hi.2.2⟩
  cases hstate : j.state with
  | completed => exact Or.inl rfl
  | preempted => exact Or.inr rfl
  | queued => exact absurd h0 (ne_of_gt (hi.2.2 (Or.inl hstate)))
  | running => exact absurd h0 (ne_of_gt (hi.2.2 (Or.inr hstate)))

/-- Witness for the amended C7 theorem at a concrete freshly spawned job. -/
theorem remaining_zero_iff_completed_amended_witness :
    jC7a.state = .queued ∧ 0 < jC7a.remaining_time := by
  have h := remaining_zero_iff_completed_amended jC7a
    (JobReachable.spawn jC7a (by norm_num [jC7a]) (by norm_num [jC7a]) rfl)
  exact ⟨rfl, h.2.2 (Or.inl rfl)⟩

/-- Counterexample to C7 as stated: a reachable job (allocated at time 1,
preempted at time 7, after its 1-minute service time had fully elapsed) in
state Preempted with `remaining_time = 0` — the code clamps
`remaining_time - elapsed` to 0 on preemption without completing the job. -/
theorem remaining_zero_preempted_counterexample :
    JobReachable jC7pre ∧ jC7pre.state = .preempted ∧ jC7pre.remaining_time = 0 := by
  have hrun_eq : jC7run =
      { id := "j7", tenant_id := "t7", cpu := 1, ram := 1, gpus := 0,
        priority := .low, arrival_time := 0, start_time := some 1,
        end_time := none, preemption_time := none, last_start_time := some 1,
        remaining_time := 1, duration := 1, wait_time := 1, state := .running } := by
    norm_num [jC7run, jC7a, sweep_entry, advance_running, allocate_job_fields,
      truthy, handle_completion, max_def]
  have h0 : JobReachable jC7a :=
    JobReachable.spawn jC7a (by norm_num [jC7a]) (by norm_num [jC7a]) rfl
  have h1 : JobReachable jC7run :=
    JobReachable.step _ _ h0
      (IterStep.running jC7a (allocate_job_fields jC7a 1) 1 1
        (Relation.ReflTransGen.single (SchedStep.alloc jC7a 1 (Or.inl rfl)))
        rfl)
  have h2 : JobReachable jC7pre :=
    JobReachable.step _ _ h1
      (IterStep.notRunning jC7run jC7pre
        (Relation.ReflTransGen.single
          (SchedStep.preempt jC7run 7 1 (by rw [hrun_eq]) (by rw [hrun_eq])))
        (by unfold jC7pre preempt_fields; simp))
  refine ⟨h2, by unfold jC7pre preempt_fields; simp, ?_⟩
  have : jC7pre.remaining_time = max 0 (jC7run.remaining_time - (7 - 1)) := rfl
  rw [this, hrun_eq]
  norm_num [max_def]

/-! ## Lemmas on the embedded `heapq` routines. -/

section HeapLemmas

variable {α : Type} [LinearOrder α]

/-- `_siftdown` only writes into existing cells: the length is unchanged. -/
lemma siftdownAux_length (l : List α) (s pos : ℕ) (x : α) :
    (siftdownAux l s pos x).length = l.length := by
  induction pos using Nat.strong_induction_on generalizing l with
  | _ pos ih =>
    rw [siftdownAux]
    split
    next hs =>
      dsimp only
      split
      next parent hp =>
        split
        · rw [ih ((pos - 1) / 2) (by omega)]
          simp
        · simp
      next hp => simp
    next hs => simp

/-- `_siftup` only writes into existing cells: the length is unchanged. -/
lemma siftupAux_length (l : List α) (s pos : ℕ) (x : α) :
    (siftupAux l s pos x).length = l.length := by
  suffices h : ∀ m (l : List α) (pos : ℕ), l.length - pos = m →
      (siftupAux l s pos x).length = l.length from h _ l pos rfl
  intro m
  induction m using Nat.strong_induction_on with
  | _ m ih =>
    intro l pos hm
    rw [siftupAux]
    split
    next hlt =>
      dsimp only
      split
      next hc =>
        obtain ⟨hc1, _⟩ := hc
        rw [ih ((l.set pos (l.getD (2 * pos + 2) x)).length - (2 * pos + 2))
          (by simp only [List.length_set]; omega) _ _ rfl]
        simp
      next hc =>
        rw [ih ((l.set pos (l.getD (2 * pos + 1) x)).length - (2 * pos + 1))
          (by simp only [List.length_set]; omega) _ _ rfl]
        simp
    next hlt =>
      rw [siftdownAux_length]
      simp

/-- Swapping an element out to the head is a permutation. -/
lemma get_cons_set_perm (t : List α) : ∀ (q : ℕ) (hq : q < t.length) (x : α),
    List.Perm (t[q] :: t.set q x) (x :: t) := by
  induction t with
  | nil => intro q hq; simp at hq
  | cons b t' ih =>
    intro q hq x
    cases q with
    | zero =>
      simp only [List.getElem_cons_zero, List.set_cons_zero]
      exact List.Perm.swap x b t'
    | succ q' =>
      simp only [List.getElem_cons_succ, List.set_cons_succ]
      exact ((List.Perm.swap _ _ _).trans
        (((ih q' (by simpa using hq) x).cons b).trans (List.Perm.swap _ _ _)))

/-- The head value and the value written at position `p` can be exchanged. -/
lemma cons_set_swap_perm (t : List α) : ∀ (p : ℕ) (hp : p < t.length) (a x : α),
    List.Perm (x :: t.set p a) (a :: t.set p x) := by
  induction t with
  | nil => intro p hp; simp at hp
  | cons b t' ih =>
    intro p hp a x
    cases p with
    | zero =>
      simp only [List.set_cons_zero]
      exact List.Perm.swap a x t'
    | succ p' =>
      simp only [List.set_cons_succ]
      exact ((List.Perm.swap _ _ _).trans
        (((ih p' (by simpa using hp) a x).cons b).trans (List.Perm.swap _ _ _)))

/-- Moving `l[q]` into position `p` and then overwriting position `q` with
`x` permutes to simply writing `x` at position `p`. -/
lemma set_get_set_perm (l : List α) : ∀ (p q : ℕ) (hp : p < l.length)
    (hq : q < l.length) (hne : p ≠ q) (x : α),
    List.Perm ((l.set p l[q]).set q x) (l.set p x) := by
  induction l with
  | nil => intro p q hp hq; simp at hp
  | cons a t ih =>
    intro p q hp hq hne x
    cases p with
    | zero =>
      cases q with
      | zero => exact absurd rfl hne
      | succ q' =>
        simp only [List.getElem_cons_succ, List.set_cons_zero, List.set_cons_succ]
        exact get_cons_set_perm t q' (by simpa using hq) x
    | succ p' =>
      cases q with
      | zero =>
        simp only [List.getElem_cons_zero, List.set_cons_succ, List.set_cons_zero]
        exact cons_set_swap_perm t p' (by simpa using hp) a x
      | succ q' =>
        simp only [List.getElem_cons_succ, List.set_cons_succ]
        exact (ih p' q' (by simpa using hp) (by simpa using hq)
          (by omega) x).cons a

/-- `_siftdown` permutes the list with `newitem` written at `pos`. -/
lemma siftdownAux_perm (l : List α) (s pos : ℕ) (x : α) (hpos : pos < l.length) :
    List.Perm (siftdownAux l s pos x) (l.set pos x) := by
  induction pos using Nat.strong_induction_on generalizing l with
  | _ pos ih =>
    rw [siftdownAux]
    split
    next hs =>
      dsimp only
      split
      next parent hp =>
        split
        next hlt =>
          have hp' : (pos - 1) / 2 < l.length := by omega
          have hparent : parent = l[(pos - 1) / 2] := by
            rw [List.getElem?_eq_getElem hp'] at hp
            exact (Option.some.injEq _ _ ▸ hp).symm
          refine (ih _ (by omega) _ (by simpa using hp')).trans ?_
          rw [hparent]
          exact set_get_set_perm l pos ((pos - 1) / 2) hpos hp' (by omega) x
        next => exact List.Perm.refl _
      next hp => exact List.Perm.refl _
    next hs => exact List.Perm.refl _

/-- `_siftup` permutes the list with `newitem` written at `pos`. -/
lemma siftupAux_perm (l : List α) (s pos : ℕ) (x : α) (hpos : pos < l.length) :
    List.Perm (siftupAux l s pos x) (l.set pos x) := by
  suffices h : ∀ m (l : List α) (pos : ℕ), l.length - pos = m → pos < l.length →
      List.Perm (siftupAux l s pos x) (l.set pos x) from h _ l pos rfl hpos
  intro m
  induction m using Nat.strong_induction_on with
  | _ m ih =>
    intro l pos hm hpos
    rw [siftupAux]
    split
    next hlt =>
      dsimp only
      split
      next hc =>
        obtain ⟨hc1, _⟩ := hc
        have hD : l.getD (2 * pos + 2) x = l[2 * pos + 2] :=
          List.getD_eq_getElem l x hc1
        refine (ih _ (by simp only [List.length_set]; omega) _ _ rfl
          (by simpa using hc1)).trans ?_
        rw [hD]
        exact set_get_set_perm l pos (2 * pos + 2) hpos hc1 (by omega) x
      next hc =>
        have hD : l.getD (2 * pos + 1) x = l[2 * pos + 1] :=
          List.getD_eq_getElem l x hlt
        refine (ih _ (by simp only [List.length_set]; omega) _ _ rfl
          (by simpa using hlt)).trans ?_
        rw [hD]
        exact set_get_set_perm l pos (2 * pos + 1) hpos hlt (by omega) x
    next hlt =>
      have h := siftdownAux_perm (l.set pos x) s pos x (by simpa using hpos)
      simpa [List.set_set] using h

/-- `getD` after an in-range `set` at the same index. -/
lemma getD_set_eq (l : List α) (i : ℕ) (a d : α) (h : i < l.length) :
    (l.set i a).getD i d = a := by
  rw [List.getD_eq_getElem _ d (by simpa using h)]
  exact List.getElem_set_self (by simpa using h)

/-- `getD` after a `set` at a different index. -/
lemma getD_set_ne (l : List α) {i j : ℕ} (hne : i ≠ j) (a d : α) :
    (l.set i a).getD j d = l.getD j d := by
  by_cases hj : j < l.length
  · rw [List.getD_eq_getElem _ d (by simpa using hj), List.getD_eq_getElem _ d hj]
    exact List.getElem_set_of_ne hne a (by simpa using hj)
  · rw [List.getD_eq_default _ d (by simpa using Nat.le_of_not_lt hj),
      List.getD_eq_default _ d (Nat.le_of_not_lt hj)]

/-- `IsHeap` phrased with total accesses (`getD` with any default). -/
lemma isHeap_iff_getD (l : List α) (d : α) :
    IsHeap l ↔ ∀ j, 0 < j → j < l.length →
      l.getD ((j - 1) / 2) d ≤ l.getD j d := by
  constructor
  · intro h j hj hlen
    rw [List.getD_eq_getElem _ d (by omega), List.getD_eq_getElem _ d hlen]
    have := h j hlen hj
    simpa [List.get_eq_getElem] using this
  · intro h j hlen hj
    have := h j hj hlen
    rw [List.getD_eq_getElem _ d (by omega), List.getD_eq_getElem _ d hlen] at this
    simpa [List.get_eq_getElem] using this

/-- In a heap the root is a lower bound for every entry. -/
lemma heap_root_min (l : List α) (h : IsHeap l) (d : α) :
    ∀ j, j < l.length → l.getD 0 d ≤ l.getD j d := by
  intro j
  induction j using Nat.strong_induction_on with
  | _ j ih =>
    intro hj
    rcases Nat.eq_zero_or_pos j with rfl | hpos
    · exact le_refl _
    · exact le_trans (ih ((j - 1) / 2) (by omega) (by omega))
        ((isHeap_iff_getD l d).mp h j hpos hj)

/-- Writing the last element of `l ++ [x]` with `x` changes nothing. -/
lemma set_append_last (l : List α) (x : α) :
    (l ++ [x]).set l.length x = l ++ [x] := by
  induction l with
  | nil => rfl
  | cons a t ih =>
    simp only [List.cons_append, List.length_cons, List.set_cons_succ, ih]

/-- `heappush` permutes to consing the new element. -/
lemma heappush_perm (l : List α) (x : α) :
    List.Perm (heappush l x) (x :: l) := by
  have h := siftdownAux_perm (l ++ [x]) 0 l.length x (by simp)
  rw [set_append_last] at h
  exact h.trans (List.perm_append_singleton x l)

/-- Correctness of `_siftdown` with `startpos = 0` (as at both of its call
sites): if the virtual array `l.set pos x` satisfies every parent-child
constraint except possibly the edge into `pos`, and additionally `pos`'s
children sit above `pos`'s parent, then sifting down yields a heap. -/
lemma siftdownAux_isHeap (l : List α) (pos : ℕ) (x : α) (hpos : pos < l.length)
    (hH : ∀ j, 0 < j → j < l.length → j ≠ pos →
      (l.set pos x).getD ((j - 1) / 2) x ≤ (l.set pos x).getD j x)
    (hG : ∀ j, j < l.length → (j - 1) / 2 = pos → 0 < pos →
      (l.set pos x).getD ((pos - 1) / 2) x ≤ (l.set pos x).getD j x) :
    IsHeap (siftdownAux l 0 pos x) := by
  induction pos using Nat.strong_induction_on generalizing l with
  | _ pos ih =>
    have hVpos : (l.set pos x).getD pos x = x := getD_set_eq l pos x x hpos
    have hV : ∀ i, i ≠ pos → (l.set pos x).getD i x = l.getD i x :=
      fun i h => getD_set_ne l (Ne.symm h) x x
    rw [siftdownAux]
    split
    next hs =>
      dsimp only
      split
      next parent hp =>
        have hpp : (pos - 1) / 2 < l.length := by omega
        have hppne : (pos - 1) / 2 ≠ pos := by omega
        have hparent : parent = l.getD ((pos - 1) / 2) x := by
          rw [List.getD_eq_getElem _ x hpp]
          rw [List.getElem?_eq_getElem hpp] at hp
          injection hp with h
          exact h.symm
        split
        next hlt =>
          have hV2pp : ((l.set pos parent).set ((pos - 1) / 2) x).getD
              ((pos - 1) / 2) x = x :=
            getD_set_eq _ _ x x (by simpa using hpp)
          have hV2pos : ((l.set pos parent).set ((pos - 1) / 2) x).getD pos x
              = parent := by
            rw [getD_set_ne _ hppne x x]
            exact getD_set_eq l pos parent x hpos
          have hV2 : ∀ i, i ≠ (pos - 1) / 2 → i ≠ pos →
              ((l.set pos parent).set ((pos - 1) / 2) x).getD i x = l.getD i x :=
            fun i h1 h2 => by
              rw [getD_set_ne _ (Ne.symm h1) x x, getD_set_ne l (Ne.symm h2) parent x]
          apply ih ((pos - 1) / 2) (by omega) (l.set pos parent)
            (by simpa using hpp)
          · -- the heap-except-at-hole hypothesis for the recursive call
            intro j hj hlen hjpp
            rw [List.length_set] at hlen
            by_cases hjpos : j = pos
            · rw [hjpos, hV2pp, hV2pos]
              exact le_of_lt hlt
            · by_cases hq : (j - 1) / 2 = (pos - 1) / 2
              · rw [hq, hV2pp, hV2 j hjpp hjpos]
                have h1 := hH j hj hlen hjpos
                rw [hq, hV ((pos - 1) / 2) hppne, hV j hjpos] at h1
                rw [← hparent] at h1
                exact le_of_lt (lt_of_lt_of_le hlt h1)
              · by_cases hq2 : (j - 1) / 2 = pos
                · rw [hq2, hV2pos, hV2 j hjpp hjpos]
                  have h1 := hG j hlen hq2 hs
                  rw [hV ((pos - 1) / 2) hppne, hV j hjpos] at h1
                  rw [← hparent] at h1
                  exact h1
                · rw [hV2 ((j - 1) / 2) hq hq2, hV2 j hjpp hjpos]
                  have h1 := hH j hj hlen hjpos
                  rw [hV ((j - 1) / 2) hq2, hV j hjpos] at h1
                  exact h1
          · -- the grandparent hypothesis for the recursive call
            intro j hlen hjq hppz
            rw [List.length_set] at hlen
            have hgp_ne_pp : ((pos - 1) / 2 - 1) / 2 ≠ (pos - 1) / 2 := by omega
            have hgp_ne_pos : ((pos - 1) / 2 - 1) / 2 ≠ pos := by omega
            have hppj : j ≠ (pos - 1) / 2 := by omega
            have hHpp := hH ((pos - 1) / 2) hppz hpp hppne
            rw [hV (((pos - 1) / 2 - 1) / 2) hgp_ne_pos,
              hV ((pos - 1) / 2) hppne] at hHpp
            by_cases hjpos : j = pos
            · rw [hjpos, hV2 ((((pos - 1) / 2) - 1) / 2) hgp_ne_pp hgp_ne_pos,
                hV2pos, hparent]
              exact hHpp
            · rw [hV2 ((((pos - 1) / 2) - 1) / 2) hgp_ne_pp hgp_ne_pos,
                hV2 j hppj hjpos]
              have hj0 : 0 < j := by omega
              have hHj := hH j hj0 hlen hjpos
              rw [hjq] at hHj
              rw [hV ((pos - 1) / 2) hppne, hV j hjpos] at hHj
              exact le_trans hHpp hHj
        next hge =>
          rw [isHeap_iff_getD _ x]
          intro j hj hlen
          rw [List.length_set] at hlen
          by_cases hjp : j = pos
          · rw [hjp, hVpos, hV ((pos - 1) / 2) hppne, ← hparent]
            exact le_of_not_lt hge
          · exact hH j hj hlen hjp
      next hp =>
        exfalso
        have : ¬ (pos - 1) / 2 < l.length := by
          intro hc
          rw [List.getElem?_eq_getElem hc] at hp
          exact absurd hp (by simp)
        omega
    next hs =>
      have hpos0 : pos = 0 := by omega
      subst hpos0
      rw [isHeap_iff_getD _ x]
      intro j hj hlen
      rw [List.length_set] at hlen
      exact hH j hj hlen (by omega)

/-- Correctness of `_siftup` with `startpos = 0` (as called by `heappop`):
if `l` satisfies every parent-child constraint not involving the hole at
`pos`, and the hole's children sit above the hole's parent, then walking the
hole down and sifting `newitem` back up yields a heap. -/
lemma siftupAux_isHeap (l : List α) (pos : ℕ) (x : α) (hpos : pos < l.length)
    (hH : ∀ j, 0 < j → j < l.length → j ≠ pos → (j - 1) / 2 ≠ pos →
      l.getD ((j - 1) / 2) x ≤ l.getD j x)
    (hG : ∀ j, j < l.length → (j - 1) / 2 = pos → 0 < pos →
      l.getD ((pos - 1) / 2) x ≤ l.getD j x) :
    IsHeap (siftupAux l 0 pos x) := by
  suffices h : ∀ m (l : List α) (pos : ℕ), l.length - pos = m → pos < l.length →
      (∀ j, 0 < j → j < l.length → j ≠ pos → (j - 1) / 2 ≠ pos →
        l.getD ((j - 1) / 2) x ≤ l.getD j x) →
      (∀ j, j < l.length → (j - 1) / 2 = pos → 0 < pos →
        l.getD ((pos - 1) / 2) x ≤ l.getD j x) →
      IsHeap (siftupAux l 0 pos x) from h _ l pos rfl hpos hH hG
  intro m
  induction m using Nat.strong_induction_on with
  | _ m ih =>
    intro l pos hm hpos hH hG
    rw [siftupAux]
    split
    next hlt =>
      dsimp only
      have main : ∀ c : ℕ, (c = 2 * pos + 1 ∨ c = 2 * pos + 2) → c < l.length →
          (∀ j, 0 < j → (j - 1) / 2 = pos → j < l.length →
            l.getD c x ≤ l.getD j x) →
          IsHeap (siftupAux (l.set pos (l.getD c x)) 0 c x) := by
        intro c hcor hclen hmin
        have hl2pos : (l.set pos (l.getD c x)).getD pos x = l.getD c x :=
          getD_set_eq l pos _ x hpos
        have hl2 : ∀ i, i ≠ pos →
            (l.set pos (l.getD c x)).getD i x = l.getD i x :=
          fun i h => getD_set_ne l (Ne.symm h) _ x
        apply ih ((l.set pos (l.getD c x)).length - c)
          (by simp only [List.length_set]; omega) _ c rfl
          (by simpa using hclen)
        · intro j hj hlen hjc hqc
          rw [List.length_set] at hlen
          by_cases hjpos : j = pos
          · have hpos0 : 0 < pos := by omega
            rw [hjpos, hl2pos, hl2 ((pos - 1) / 2) (by omega)]
            exact hG c hclen (by omega) hpos0
          · by_cases hqpos : (j - 1) / 2 = pos
            · rw [hqpos, hl2pos, hl2 j hjpos]
              exact hmin j hj hqpos hlen
            · rw [hl2 ((j - 1) / 2) hqpos, hl2 j hjpos]
              exact hH j hj hlen hjpos hqpos
        · intro j hlen hq hc0
          rw [List.length_set] at hlen
          have hcpp : (c - 1) / 2 = pos := by omega
          have hjne_pos : j ≠ pos := by omega
          have hqne_pos : (j - 1) / 2 ≠ pos := by omega
          rw [hcpp, hl2pos, hl2 j hjne_pos]
          have h1 := hH j (by omega) hlen hjne_pos hqne_pos
          rw [hq] at h1
          exact h1
      split
      next hc =>
        obtain ⟨hc1, hc2⟩ := hc
        apply main (2 * pos + 2) (Or.inr rfl) hc1
        intro j hj0 hjq hjlen
        have : j = 2 * pos + 1 ∨ j = 2 * pos + 2 := by omega
        rcases this with rfl | rfl
        · exact le_of_not_lt hc2
        · exact le_refl _
      next hc =>
        push_neg at hc
        apply main (2 * pos + 1) (Or.inl rfl) hlt
        intro j hj0 hjq hjlen
        have : j = 2 * pos + 1 ∨ j = 2 * pos + 2 := by omega
        rcases this with rfl | rfl
        · exact le_refl _
        · exact le_of_lt (hc hjlen)
    next hlt =>
      apply siftdownAux_isHeap (l.set pos x) pos x (by simpa using hpos)
      · intro j hj hlen hjpos
        rw [List.length_set] at hlen
        rw [List.set_set]
        by_cases hq : (j - 1) / 2 = pos
        · exfalso
          omega
        · rw [getD_set_ne l (Ne.symm hq) x x, getD_set_ne l (Ne.symm hjpos) x x]
          exact hH j hj hlen hjpos hq
      · intro j hlen hq hposz
        rw [List.length_set] at hlen
        exfalso
        omega

/-- `getD` on an append, reading inside the left part. -/
lemma getD_append_left (l1 l2 : List α) (n : ℕ) (d : α) (h : n < l1.length) :
    (l1 ++ l2).getD n d = l1.getD n d := by
  rw [List.getD_eq_getElem _ d (by simp only [List.length_append]; omega),
    List.getD_eq_getElem _ d h]
  exact List.getElem_append_left h

/-- `getD` of `dropLast` agrees with the original list in range. -/
lemma getD_dropLast (l : List α) (i : ℕ) (d : α) (h : i < l.dropLast.length) :
    l.dropLast.getD i d = l.getD i d := by
  rw [List.getD_eq_getElem _ d h,
    List.getD_eq_getElem _ d (by simp only [List.length_dropLast] at h; omega)]
  exact List.getElem_dropLast l i h

/-- `heappush` preserves the heap invariant. -/
lemma heappush_isHeap (l : List α) (x : α) (h : IsHeap l) :
    IsHeap (heappush l x) := by
  unfold heappush
  apply siftdownAux_isHeap (l ++ [x]) l.length x (by simp)
  · intro j hj hlen hjpos
    simp only [List.length_append, List.length_singleton] at hlen
    have hjl : j < l.length := by omega
    rw [set_append_last]
    rw [getD_append_left l [x] j x hjl, getD_append_left l [x] ((j - 1) / 2) x (by omega)]
    exact (isHeap_iff_getD l x).mp h j hj hjl
  · intro j hlen hq hpos0
    simp only [List.length_append, List.length_singleton] at hlen
    omega

/-- Full characterisation of `heappop` on a nonempty heap: it returns the
root, the remainder is again a heap, and no element is lost. -/
lemma heappop_spec (l : List α) (h : IsHeap l) (z : α) (zs : List α)
    (hl : l = z :: zs) :
    ∃ l', heappop l = some (z, l') ∧ IsHeap l' ∧ List.Perm (z :: l') l := by
  subst hl
  cases zs with
  | nil =>
    refine ⟨[], by simp [heappop], ?_, List.Perm.refl _⟩
    intro j hj
    simp at hj
  | cons w ws =>
    have hne : (w :: ws) ≠ [] := by simp
    have hlast : (z :: w :: ws).getLast (by simp) = (w :: ws).getLast hne :=
      List.getLast_cons hne
    have hdecomp : (w :: ws).dropLast ++ [(w :: ws).getLast hne] = w :: ws :=
      List.dropLast_append_getLast hne
    refine ⟨siftupAux ((w :: ws).getLast hne :: (w :: ws).dropLast) 0 0
      ((w :: ws).getLast hne), ?_, ?_, ?_⟩
    · simp only [heappop, List.dropLast_cons₂, List.set_cons_zero, hlast]
    · apply siftupAux_isHeap _ 0 _ (by simp)
      · intro j hj hlen hj0 hq0
        simp only [List.length_cons] at hlen
        have hrest : ∀ i, 0 < i → i < (w :: ws).dropLast.length + 1 →
            ((w :: ws).getLast hne :: (w :: ws).dropLast).getD i
              ((w :: ws).getLast hne) =
            (z :: w :: ws).getD i ((w :: ws).getLast hne) := by
          intro i hi hilen
          cases i with
          | zero => omega
          | succ i' =>
            simp only [List.getD_cons_succ]
            have hi' : i' < (w :: ws).dropLast.length := by omega
            rw [getD_dropLast (w :: ws) i' _ hi']
        rw [hrest j hj hlen, hrest ((j - 1) / 2) (by omega) (by omega)]
        have hjlen2 : j < (z :: w :: ws).length := by
          simp only [List.length_cons]
          simp only [List.length_dropLast] at hlen
          simp only [List.length_cons] at hlen ⊢
          omega
        exact (isHeap_iff_getD (z :: w :: ws) _).mp h j hj hjlen2
      · intro j hlen hq h0
        exact absurd h0 (lt_irrefl 0)
    · have hperm1 : List.Perm
          (siftupAux ((w :: ws).getLast hne :: (w :: ws).dropLast) 0 0
            ((w :: ws).getLast hne))
          ((w :: ws).getLast hne :: (w :: ws).dropLast) := by
        have hp := siftupAux_perm
          ((w :: ws).getLast hne :: (w :: ws).dropLast) 0 0
          ((w :: ws).getLast hne) (by simp)
        simpa [List.set_cons_zero] using hp
      refine (hperm1.cons z).trans (List.Perm.cons z ?_)
      have h2 : List.Perm ((w :: ws).getLast hne :: (w :: ws).dropLast)
          ((w :: ws).dropLast ++ [(w :: ws).getLast hne]) :=
        (List.perm_append_singleton _ _).symm
      rw [hdecomp] at h2
      exact h2

/-- In a heap, the head bounds every member from below. -/
lemma heap_head_le_mem (l : List α) (h : IsHeap l) (z : α) (zs : List α)
    (hl : l = z :: zs) : ∀ y ∈ l, z ≤ y := by
  subst hl
  intro y hy
  obtain ⟨j, hj, rfl⟩ := List.getElem_of_mem hy
  have h0 := heap_root_min (z :: zs) h z j hj
  rw [List.getD_eq_getElem _ _ hj] at h0
  simpa using h0

end HeapLemmas

/-- Unfolding of the lexicographic order on event keys. -/
lemma eventkey_lt_iff (a b : EventKey) :
    a < b ↔ ((ofLex a).1 < (ofLex b).1 ∨
      ((ofLex a).1 = (ofLex b).1 ∧ (ofLex a).2 < (ofLex b).2)) :=
  Prod.Lex.lt_iff (ofLex a) (ofLex b)

/-- Event keys with different sequence numbers are different. -/
lemma eventkey_ne_of_seq_ne {a b : EventKey} (h : (ofLex a).2 ≠ (ofLex b).2) :
    a ≠ b :=
  fun heq => h (by rw [heq])

/-- The inductive invariant of event-queue traces with nondecreasing push
times: the backing list is a heap, every recorded key has time at most the
latest push time and seq below the counter, the popped keys ascend strictly,
every popped key is below everything still queued, and all seq values are
pairwise distinct. -/
lemma eqtrace_inv {l p : List EventKey} {c : ℕ} {t0 : ℚ} (h : EQTrace l p c t0) :
    IsHeap l ∧
    (∀ k ∈ l, (ofLex k).1 ≤ t0 ∧ (ofLex k).2 < c) ∧
    (∀ k ∈ p, (ofLex k).1 ≤ t0 ∧ (ofLex k).2 < c) ∧
    List.Chain' (fun a b => a < b) p ∧
    (∀ a ∈ p, ∀ b ∈ l, a < b) ∧
    List.Pairwise (fun a b => (ofLex a).2 ≠ (ofLex b).2) (l ++ p) := by
  induction h with
  | empty t0 =>
    refine ⟨?_, by simp, by simp, by simp, by simp, by simp⟩
    intro j hj
    simp at hj
  | push l p c t0 t s hs ht htr ih =>
    obtain ⟨ih1, ih2, ih3, ih4, ih5, ih6⟩ := ih
    have hperm := heappush_perm l (mkKey t s)
    refine ⟨heappush_isHeap l _ ih1, ?_, ?_, ih4, ?_, ?_⟩
    · intro k hk
      rcases List.mem_cons.mp (hperm.mem_iff.mp hk) with rfl | hk2
      · exact ⟨le_refl _, by simp [mkKey]⟩
      · obtain ⟨h1, h2⟩ := ih2 k hk2
        exact ⟨le_trans h1 ht, by omega⟩
    · intro k hk
      obtain ⟨h1, h2⟩ := ih3 k hk
      exact ⟨le_trans h1 ht, by omega⟩
    · intro a ha b hb
      rcases List.mem_cons.mp (hperm.mem_iff.mp hb) with rfl | hb2
      · obtain ⟨h1, h2⟩ := ih3 a ha
        rw [eventkey_lt_iff]
        rcases lt_or_eq_of_le (le_trans h1 ht) with hlt | heqt
        · exact Or.inl (by simpa [mkKey] using hlt)
        · refine Or.inr ⟨by simpa [mkKey] using heqt, ?_⟩
          simp only [mkKey, ofLex_toLex]
          omega
      · exact ih5 a ha b hb2
    · have hp2 : List.Perm (heappush l (mkKey t s) ++ p)
          (mkKey t s :: (l ++ p)) := hperm.append_right p
      rw [List.Perm.pairwise_iff (fun hab => Ne.symm hab) hp2]
      refine List.Pairwise.cons ?_ ih6
      intro b hb heq
      simp only [mkKey, ofLex_toLex] at heq
      rcases List.mem_append.mp hb with hbl | hbp
      · have := (ih2 b hbl).2
        omega
      · have := (ih3 b hbp).2
        omega
  | pop l p c t0 x l' htr hpop ih =>
    obtain ⟨ih1, ih2, ih3, ih4, ih5, ih6⟩ := ih
    cases hl : l with
    | nil =>
      rw [hl] at hpop
      exact absurd hpop (by simp [heappop])
    | cons z zs =>
      obtain ⟨l'', heq, hheap, hperm⟩ := heappop_spec l ih1 z zs hl
      have hinj : (z, l'') = (x, l') := Option.some.inj (heq.symm.trans hpop)
      have hx : z = x := congrArg Prod.fst hinj
      have hl3 : l' = l'' := (congrArg Prod.snd hinj).symm
      subst hx
      subst hl3
      have hmem' : ∀ k ∈ l', k ∈ l :=
        fun k hk => hperm.subset (List.mem_cons_of_mem z hk)
      have hzl : z ∈ l := hperm.subset (List.mem_cons_self _ _)
      have hseq_l : List.Pairwise (fun a b => (ofLex a).2 ≠ (ofLex b).2)
          (z :: l') := by
        have h1 : List.Pairwise (fun a b => (ofLex a).2 ≠ (ofLex b).2) l :=
          (List.pairwise_append.mp ih6).1
        exact (List.Perm.pairwise_iff (fun hab => Ne.symm hab)
          hperm.symm).mp h1
      refine ⟨hheap, ?_, ?_, ?_, ?_, ?_⟩
      · intro k hk
        exact ih2 k (hmem' k hk)
      · intro k hk
        rcases List.mem_append.mp hk with hkp | hkz
        · exact ih3 k hkp
        · rw [List.mem_singleton.mp hkz]
          exact ih2 z hzl
      · rw [List.chain'_append]
        refine ⟨ih4, List.chain'_singleton _, ?_⟩
        intro a ha b hb
        simp only [List.head?_cons, Option.mem_def, Option.some.injEq] at hb
        subst hb
        exact ih5 a (List.mem_of_mem_getLast? ha) z hzl
      · intro a ha b hb
        rcases List.mem_append.mp ha with hap | haz
        · exact ih5 a hap b (hmem' b hb)
        · rw [List.mem_singleton.mp haz]
          have hle : z ≤ b :=
            heap_head_le_mem l ih1 z zs hl b (hmem' b hb)
          have hne : z ≠ b :=
            eventkey_ne_of_seq_ne ((List.pairwise_cons.mp hseq_l).1 b hb)
          exact lt_of_le_of_ne hle hne
      · have hp3 : List.Perm (l' ++ (p ++ [z])) (l ++ p) := by
          have s1 : List.Perm (l' ++ (p ++ [z])) (z :: (l' ++ p)) := by
            have : l' ++ (p ++ [z]) = (l' ++ p) ++ [z] := by
              rw [List.append_assoc]
            rw [this]
            exact List.perm_append_singleton _ _
          exact s1.trans (hperm.append_right p)
        rw [List.Perm.pairwise_iff (fun hab => Ne.symm hab) hp3]
        exact ih6

/-- C6 (amended): along every event-queue trace built by pushes and pops from
empty in which pushed events carry nondecreasing times — as `make_event` is
used in the engine, where every event's `time` is the monotone wall clock
read at push — the popped events form a strictly ascending `(time, seq)`
lexicographic sequence; `seq` is drawn from the monotone process-wide
counter, so all events (queued or popped) have pairwise distinct `seq` and no
two compare equal. Without the time-monotonicity condition the claimed
property fails (see the counterexample). -/
theorem eventqueue_pop_order (l p : List EventKey) (c : ℕ) (t0 : ℚ)
    (h : EQTrace l p c t0) :
    List.Chain' (fun a b => (ofLex a).1 < (ofLex b).1 ∨
      ((ofLex a).1 = (ofLex b).1 ∧ (ofLex a).2 < (ofLex b).2)) p ∧
    List.Pairwise (fun a b => (ofLex a).2 ≠ (ofLex b).2) (l ++ p) ∧
    List.Pairwise (fun a b => a ≠ b) (l ++ p) := by
  obtain ⟨_, _, _, h4, _, h6⟩ := eqtrace_inv h
  refine ⟨?_, h6, ?_⟩
  · exact List.Chain'.imp (fun a b hab => (eventkey_lt_iff a b).mp hab) h4
  · exact h6.imp (fun hab => eventkey_ne_of_seq_ne hab)

/-- Evaluation: pushing one key into an empty queue. -/
lemma heappush_nil (k : EventKey) : heappush ([] : List EventKey) k = [k] := by
  simp [heappush, siftdownAux]

/-- Evaluation: popping a singleton queue. -/
lemma heappop_single (k : EventKey) :
    heappop [k] = some (k, ([] : List EventKey)) := by
  simp [heappop]

/-- Witness for the amended C6 theorem: a concrete monotone trace
(push time 3 seq 0, pop, push time 5 seq 1, pop) whose pops ascend. -/
theorem eventqueue_pop_order_witness :
    List.Chain' (fun a b => (ofLex a).1 < (ofLex b).1 ∨
      ((ofLex a).1 = (ofLex b).1 ∧ (ofLex a).2 < (ofLex b).2))
      [mkKey 3 0, mkKey 5 1] ∧
    mkKey 3 0 ≠ mkKey 5 1 := by
  have h0 : EQTrace ([] : List EventKey) [] 0 0 := .empty 0
  have h1 := EQTrace.push [] [] 0 0 3 0 (le_refl 0) (by norm_num) h0
  rw [heappush_nil] at h1
  have h2 := EQTrace.pop _ _ _ _ _ _ h1 (heappop_single (mkKey 3 0))
  simp only [List.nil_append] at h2
  have h3 := EQTrace.push _ _ _ _ 5 1 (le_refl 1) (by norm_num) h2
  rw [heappush_nil] at h3
  have h4 := EQTrace.pop _ _ _ _ _ _ h3 (heappop_single (mkKey 5 1))
  simp only [List.cons_append, List.nil_append] at h4
  have hmain := eventqueue_pop_order _ _ _ _ h4
  refine ⟨hmain.1, ?_⟩
  have := hmain.2.2
  simp only [List.nil_append] at this
  exact (List.pairwise_cons.mp this).1 (mkKey 5 1) (by simp)

/-- Counterexample to C6 as stated: with arbitrary times, a push/pop/push/pop
sequence (push time 5 seq 0, pop, push time 3 seq 1, pop) is a legal sequence
of pushes and pops on the event queue, yet the popped events are not in
ascending `(time, seq)` order — the claim's universal quantification over
every sequence of pushes and pops is too strong. -/
theorem eventqueue_pop_order_counterexample :
    EQTraceAny [] [mkKey 5 0, mkKey 3 1] 2 ∧
    ¬ List.Chain' (fun a b => (ofLex a).1 < (ofLex b).1 ∨
      ((ofLex a).1 = (ofLex b).1 ∧ (ofLex a).2 < (ofLex b).2))
      [mkKey 5 0, mkKey 3 1] := by
  constructor
  · have h0 : EQTraceAny ([] : List EventKey) [] 0 := .empty
    have h1 := EQTraceAny.push [] [] 0 5 0 (le_refl 0) h0
    rw [heappush_nil] at h1
    have h2 := EQTraceAny.pop _ _ _ _ _ h1 (heappop_single (mkKey 5 0))
    simp only [List.nil_append] at h2
    have h3 := EQTraceAny.push _ _ _ 3 1 (le_refl 1) h2
    rw [heappush_nil] at h3
    have h4 := EQTraceAny.pop _ _ _ _ _ h3 (heappop_single (mkKey 3 1))
    simpa using h4
  · intro hc
    have h1 := List.chain'_cons.mp hc
    rcases h1.1 with hlt | ⟨heqt, _⟩
    · simp only [mkKey, ofLex_toLex] at hlt
      norm_num at hlt
    · simp only [mkKey, ofLex_toLex] at heqt
      norm_num at heqt

end NeuroSched
